import Mathlib

/-!
Verification of the HTML structural analyzer of the `who_am_i` repository.

The development shallowly embeds the two core functions of the repository:

* `findCompleteHtmlElement` (src/extension.ts, lines 688-817): the
  Element-Range Locator, `locate(text, offset) -> ElementRange | NOT_FOUND`.
* `parseHTMLHierarchy` and `extractAttribute` (src/TreeDataProvider.ts,
  lines 67-147): the Tree Builder.

Document text is represented as `List Char`; character offsets are `Nat`.
JavaScript `text[i]` (which yields `undefined` out of range, making every
comparison false) is embedded as `List.get? i`, so out-of-range accesses
make the guards false exactly as in the source.  Mutable loops become
structural recursions; where the JavaScript loop advances a cursor that is
not a structural argument, a fuel argument bounds the recursion, with the
fuel chosen so that it provably cannot run out before the loop's own exit
condition fires (the cursor strictly increases every iteration and the
loop stops once the cursor passes the end of the text).
-/

namespace WhoAmI

/-- JS regex `\s` (ASCII range): space, tab, newline, carriage return,
vertical tab, form feed. -/
def isJsSpace (c : Char) : Bool :=
  c = ' ' || c = '\t' || c = '\n' || c = '\r' || c = '\x0b' || c = '\x0c'

/-- JS regex `\w`: ASCII letters, digits and underscore. -/
def isWordChar (c : Char) : Bool :=
  c.isAlphanum || c = '_'

/-- Character class `[a-zA-Z0-9\-]` of the locator's tag-name regex
(everything after the leading letter). -/
def isNameChar (c : Char) : Bool :=
  c.isAlphanum || c = '-'

/-- The characters `<!--`, used by `text.substring(i, i + 4) === '<!--'`. -/
def commentOpen : List Char := ['<', '!', '-', '-']

/-- extension.ts line 771: the `voidElements` array. -/
def voidElements : List (List Char) :=
  ["area", "base", "br", "col", "embed", "hr", "img", "input", "link",
   "meta", "source", "track", "wbr"].map String.toList

/-- TreeDataProvider.ts line 73: the `selfClosingTags` set. -/
def selfClosingTags : List (List Char) :=
  ["img", "br", "hr", "input", "meta", "link", "source", "area", "base",
   "col", "embed", "track", "wbr"].map String.toList

/-- JS `String.prototype.endsWith('/>')`: the last two characters are
`/` then `>`. -/
def endsWithSlashGt (l : List Char) : Bool :=
  match l.reverse with
  | a :: b :: _ => a = '>' && b = '/'
  | _ => false

/-- Index (relative to the scanned list) of the first suffix satisfying
`p`; used to embed `String.indexOf` and `RegExp.exec` position searches. -/
def scanIdx (p : List Char → Bool) : List Char → Option Nat
  | [] => if p [] then some 0 else none
  | c :: tl => if p (c :: tl) then some 0 else (scanIdx p tl).map (· + 1)

/-- JS `text.indexOf(pat, s)`: position of the first occurrence of `pat`
at or after `s`. -/
def findSubstrFrom (t pat : List Char) (s : Nat) : Option Nat :=
  (scanIdx (fun l => pat.isPrefixOf l) (t.drop s)).map (s + ·)

/-- Case-insensitive (ASCII) prefix test, embedding the `'i'` regex flag. -/
def ciIsPrefix : List Char → List Char → Bool
  | [], _ => true
  | _ :: _, [] => false
  | a :: as, b :: bs => (a.toLower = b.toLower) && ciIsPrefix as bs

/-- Whether the regex `<tagName(?:\s|>)` (flag `i`) matches at the head of
`l` (extension.ts line 786). -/
def openPatAt (name : List Char) (l : List Char) : Bool :=
  match l with
  | '<' :: rest =>
    ciIsPrefix name rest &&
      (match (rest.drop name.length).head? with
       | some c => isJsSpace c || c = '>'
       | none => false)
  | _ => false

/-- Position of the first match of `<tagName(?:\s|>)` at or after `s`
(extension.ts lines 786-788). -/
def findOpenFrom (t name : List Char) (s : Nat) : Option Nat :=
  (scanIdx (openPatAt name) (t.drop s)).map (s + ·)

/-- JS `text.indexOf('>', s)` specialised to a single character. -/
def indexOfCharFrom (t : List Char) (c : Char) (s : Nat) : Option Nat :=
  (scanIdx (fun l => l.head? = some c) (t.drop s)).map (s + ·)

/-- The regex `^<([a-zA-Z][a-zA-Z0-9\-]*)[^>]*>` (extension.ts lines 705 and
739) applied to the suffix `l`; returns the captured tag name.  The capture
`[a-zA-Z0-9\-]*` is greedy, hence maximal; since name characters are not
`>`, the whole pattern matches exactly when a `>` occurs after the leading
letter. -/
def matchOpenTag (l : List Char) : Option (List Char) :=
  match l with
  | lt :: c :: rest =>
    if lt = '<' then
      if c.isAlpha then
        if ((rest.dropWhile isNameChar).dropWhile (· ≠ '>')).head? = some '>' then
          some (c :: rest.takeWhile isNameChar)
        else none
      else none
    else none
  | _ => none

/-- The inner `while (tagStartPos > 0 && text[tagStartPos] !== '<')
tagStartPos--;` loop (extension.ts lines 717-720). -/
def backToLt (t : List Char) : Nat → Nat
  | 0 => 0
  | p + 1 => if t.get? (p + 1) = some '<' then p + 1 else backToLt t p

/-- Result of one iteration of the backward anchor-search loop body
(extension.ts lines 696-726): an opening tag was found, the loop `break`s
without a result (a closing tag was crossed), or the scan continues with
`i - 1`. -/
inductive BackStep where
  | found (name : List Char)
  | stop
  | next
deriving DecidableEq

/-- One iteration of the backward search at index `i` (extension.ts lines
696-726).  The `>`-check at line 715 is reached only when `text[i]` is not
`<` (a `continue`d `<` cannot equal `>`), so it is embedded as `else if`. -/
def stepBack (t : List Char) (i : Nat) : BackStep :=
  if t.get? i = some '<' ∧ i + 1 < t.length then
    if (t.drop i).take 4 = commentOpen ∨ t.get? (i + 1) = some '/' then .next
    else
      match matchOpenTag (t.drop i) with
      | some nm => .found nm
      | none => .next
  else if t.get? i = some '>' ∧ 0 < i ∧ ¬ t.get? (i - 1) = some '/' then
    if t.get? (backToLt t i + 1) = some '/' then .stop else .next
  else .next

/-- The backward anchor search, `for (let i = offset; i >= 0; i--)`
(extension.ts lines 696-726), returning the anchor position and lower-cased
tag name. -/
def searchBack (t : List Char) : Nat → Option (Nat × List Char)
  | 0 =>
    match stepBack t 0 with
    | .found nm => some (0, nm.map Char.toLower)
    | _ => none
  | i + 1 =>
    match stepBack t (i + 1) with
    | .found nm => some (i + 1, nm.map Char.toLower)
    | .stop => none
    | .next => searchBack t i

/-- The forward anchor search, `for (let i = offset; i < text.length; i++)`
(extension.ts lines 731-747).  The fuel equals `t.length - i`, which is
exactly the number of remaining iterations, so it cannot run out before the
loop's own `i < text.length` exit fires. -/
def searchFwdF (t : List Char) : Nat → Nat → Option (Nat × List Char)
  | 0, _ => none
  | fuel + 1, i =>
    if i < t.length then
      if t.get? i = some '<' ∧ i + 1 < t.length then
        if (t.drop i).take 4 = commentOpen ∨ t.get? (i + 1) = some '/' then
          searchFwdF t fuel (i + 1)
        else
          match matchOpenTag (t.drop i) with
          | some nm => some (i, nm.map Char.toLower)
          | none => searchFwdF t fuel (i + 1)
      else searchFwdF t fuel (i + 1)
    else none

def searchFwd (t : List Char) (i : Nat) : Option (Nat × List Char) :=
  searchFwdF t (t.length - i) i

/-- Anchor-tag search: backward first, then forward (extension.ts lines
692-748). -/
def anchorSearch (t : List Char) (offset : Nat) : Option (Nat × List Char) :=
  match searchBack t offset with
  | some r => some r
  | none => searchFwd t offset

/-- The string `</tagName>` (extension.ts line 778). -/
def closingTagOf (name : List Char) : List Char :=
  '<' :: '/' :: (name ++ ['>'])

/-- The matching-closing-tag loop (extension.ts lines 779-813), searching
forward from `s` with depth counter `d`.  Each iteration strictly increases
the search position (the found positions are at or after `s` and the skips
are positive), and the loop exits once the position reaches `t.length`, so
fuel `t.length + 1` can never run out before the loop's own exit. -/
def matchCloseF (t name : List Char) : Nat → Nat → Nat → Option Nat
  | 0, _, _ => none
  | fuel + 1, d, s =>
    if d = 0 ∨ t.length ≤ s then none
    else
      match findSubstrFrom t (closingTagOf name) s with
      | none => none
      | some c =>
        match findOpenFrom t name s with
        | some p =>
          if p < c then matchCloseF t name fuel (d + 1) (p + name.length + 1)
          else if d - 1 = 0 then some (c + (closingTagOf name).length)
          else matchCloseF t name fuel (d - 1) (c + (closingTagOf name).length)
        | none =>
          if d - 1 = 0 then some (c + (closingTagOf name).length)
          else matchCloseF t name fuel (d - 1) (c + (closingTagOf name).length)

def matchClose (t name : List Char) (s d : Nat) : Option Nat :=
  matchCloseF t name (t.length + 1) d s

/-- The returned element range: exclusive character offsets `start` and
`stop` (named `end` in the source). -/
structure ElementRange where
  start : Nat
  stop : Nat
deriving DecidableEq

/-- The function `findCompleteHtmlElement(text, offset)` (extension.ts lines 688-817).
The source's `!tagName` test (line 750) is omitted: the anchor regex's
capture group is nonempty whenever it matches, so the test is dead there. -/
def findCompleteHtmlElement (t : List Char) (offset : Nat) : Option ElementRange :=
  match anchorSearch t offset with
  | none => none
  | some (tagStart, tagName) =>
    match indexOfCharFrom t '>' tagStart with
    | none => none
    | some openEnd =>
      if endsWithSlashGt ((t.drop tagStart).take (openEnd + 1 - tagStart)) then
        some ⟨tagStart, openEnd + 1⟩
      else if tagName ∈ voidElements then some ⟨tagStart, openEnd + 1⟩
      else
        match matchClose t tagName (openEnd + 1) 1 with
        | some e => some ⟨tagStart, e⟩
        | none => none

/-! ## Tree Builder (src/TreeDataProvider.ts) -/

/-- One match of the tag regex `/<\/?(\w+)([^>]*)>/g` (TreeDataProvider.ts
line 76): the optional `/`, the captured name `(\w+)`, and the captured
attribute text `([^>]*)`. -/
structure Tag where
  closing : Bool
  name : List Char
  attrs : List Char
deriving DecidableEq

/-- The full matched text `match[0]` of a tag token. -/
def Tag.fullMatch (g : Tag) : List Char :=
  '<' :: ((if g.closing then ['/'] else []) ++ g.name ++ g.attrs ++ ['>'])

/-- The part of the tag regex after the `<` and the optional `/`: the greedy
nonempty word run `(\w+)`, the greedy non-`>` run `([^>]*)`, and the final
`>`.  Since word characters are not `>`, the greedy runs are maximal and the
pattern matches exactly when the word run is nonempty and a `>` follows. -/
def tagAfter (closing : Bool) (rest1 : List Char) : Option (Tag × List Char) :=
  if rest1.takeWhile isWordChar = [] then none
  else
    match (rest1.dropWhile isWordChar).dropWhile (· ≠ '>') with
    | g :: rest4 =>
      if g = '>' then
        some (⟨closing, rest1.takeWhile isWordChar,
               (rest1.dropWhile isWordChar).takeWhile (· ≠ '>')⟩, rest4)
      else none
    | [] => none

/-- Attempt to match the tag regex `<\/?(\w+)([^>]*)>` at the head of `l`;
returns the token and the remaining text after the match. -/
def tryTag : List Char → Option (Tag × List Char)
  | [] => none
  | c :: rest0 =>
    if c = '<' then
      if rest0.head? = some '/' then tagAfter true rest0.tail
      else tagAfter false rest0
    else none

/-- Position-by-position scan for the next match of the tag regex, embedding
`tagRegex.exec`'s leftmost-match semantics: a `<` that does not begin a valid
tag (and any non-`<` character) is skipped without error. -/
def nextTag : List Char → Option (Tag × List Char)
  | [] => none
  | c :: cs =>
    match tryTag (c :: cs) with
    | some r => some r
    | none => nextTag cs

theorem dropWhile_length_le (p : Char → Bool) (l : List Char) :
    (l.dropWhile p).length ≤ l.length := by
  induction l with
  | nil => simp
  | cons c cs ih =>
    simp only [List.dropWhile_cons]
    split
    · simpa using Nat.le_succ_of_le ih
    · simp

theorem tagAfter_rest_length {b : Bool} {rest1 : List Char} {g : Tag}
    {rest : List Char} (h : tagAfter b rest1 = some (g, rest)) :
    rest.length < rest1.length := by
  unfold tagAfter at h
  split at h
  · exact absurd h (by simp)
  · next hne =>
    split at h
    · next g0 rest4 heq =>
      split at h
      · next hg =>
        have h3 : (g0 :: rest4).length ≤ (rest1.dropWhile isWordChar).length := by
          rw [← heq]; exact dropWhile_length_le _ _
        have h2 : (rest1.dropWhile isWordChar).length < rest1.length := by
          rcases rest1 with _ | ⟨c, cs⟩
          · simp [List.takeWhile] at hne
          · by_cases hw : isWordChar c
            · simp only [List.dropWhile_cons, hw]
              exact Nat.lt_succ_of_le (dropWhile_length_le _ _)
            · simp [List.takeWhile_cons, hw] at hne
        cases h
        simp only [List.length_cons] at h3
        omega
      · exact absurd h (by simp)
    · exact absurd h (by simp)

theorem tryTag_rest_length {l : List Char} {g : Tag} {rest : List Char}
    (h : tryTag l = some (g, rest)) : rest.length < l.length := by
  rcases l with _ | ⟨c, rest0⟩
  · exact absurd h (by simp [tryTag])
  · simp only [tryTag] at h
    split at h
    · split at h
      · have h1 := tagAfter_rest_length h
        have h2 : rest0.tail.length ≤ rest0.length := by
          rcases rest0 with _ | ⟨_, _⟩ <;> simp
        simp only [List.length_cons]; omega
      · have h1 := tagAfter_rest_length h
        simp only [List.length_cons]; omega
    · exact absurd h (by simp)

theorem nextTag_rest_length {l : List Char} {g : Tag} {rest : List Char}
    (h : nextTag l = some (g, rest)) : rest.length < l.length := by
  induction l with
  | nil => simp [nextTag] at h
  | cons c cs ih =>
    unfold nextTag at h
    split at h
    · next r heq => cases h; exact tryTag_rest_length heq
    · exact Nat.lt_trans (ih h) (by simp)

/-- Fuelled iteration of `nextTag`, embedding the
`while ((match = tagRegex.exec(htmlContent)) !== null)` scan
(TreeDataProvider.ts line 79).  Each match consumes at least one character,
so fuel `t.length` suffices: when the fuel is exhausted the remaining text
is empty and the scan would stop anyway. -/
def tokenizeF : Nat → List Char → List Tag
  | 0, _ => []
  | fuel + 1, t =>
    match nextTag t with
    | none => []
    | some (g, rest) => g :: tokenizeF fuel rest

/-- The sequence of tag-regex matches of the whole document, in order. -/
def tokenize (t : List Char) : List Tag :=
  tokenizeF t.length t

theorem tokenizeF_nil (f : Nat) : tokenizeF f [] = [] := by
  cases f <;> simp [tokenizeF, nextTag]

theorem tokenizeF_fuel : ∀ (n : Nat) {t : List Char} {f g : Nat},
    t.length ≤ n → t.length ≤ f → t.length ≤ g →
    tokenizeF f t = tokenizeF g t := by
  intro n
  induction n with
  | zero =>
    intro t f g hn _ _
    have : t = [] := List.length_eq_zero.mp (Nat.le_zero.mp hn)
    subst this
    rw [tokenizeF_nil, tokenizeF_nil]
  | succ n ih =>
    intro t f g hn hf hg
    match f, g with
    | 0, g =>
      have : t = [] := List.length_eq_zero.mp (Nat.le_zero.mp hf)
      subst this; rw [tokenizeF_nil, tokenizeF_nil]
    | f + 1, 0 =>
      have : t = [] := List.length_eq_zero.mp (Nat.le_zero.mp hg)
      subst this; rw [tokenizeF_nil, tokenizeF_nil]
    | f + 1, g + 1 =>
      show tokenizeF (f + 1) t = tokenizeF (g + 1) t
      unfold tokenizeF
      rcases hn' : nextTag t with _ | ⟨tag, rest⟩
      · rfl
      · have hl := nextTag_rest_length hn'
        simp only
        have heq : tokenizeF f rest = tokenizeF g rest :=
          ih (t := rest) (by omega) (by omega) (by omega)
        rw [heq]

/-- The one-step unfolding of `tokenize`, used as its recursion interface. -/
theorem tokenize_eq (t : List Char) :
    tokenize t = match nextTag t with
                 | none => []
                 | some (g, rest) => g :: tokenize rest := by
  unfold tokenize
  rcases ht : t.length with _ | n
  · have : t = [] := List.length_eq_zero.mp ht
    subst this; simp [tokenizeF_nil, nextTag]
  · unfold tokenizeF
    rcases hn : nextTag t with _ | ⟨tag, rest⟩
    · rfl
    · have hl : rest.length < t.length := nextTag_rest_length hn
      rw [ht] at hl
      simp only
      have heq : tokenizeF n rest = tokenizeF rest.length rest :=
        tokenizeF_fuel rest.length (le_refl _) (by omega) (le_refl _)
      rw [heq]
      conv_rhs => rw [← tokenizeF.eq_def]

/-! ### Attribute extraction (TreeDataProvider.ts lines 143-147) -/

/-- Whether the character is a single or double quote, matching the regex
class `["']`. -/
def isQuote (c : Char) : Bool := c = '"' || c = '\''

/-- Case-insensitive stripping of `name` from the head of `l` (the regex is
built with the `'i'` flag), returning the remainder on success. -/
def stripCI : List Char → List Char → Option (List Char)
  | [], l => some l
  | _ :: _, [] => none
  | a :: as, b :: bs => if a.toLower = b.toLower then stripCI as bs else none

/-- Whether the regex `attrName\s*=\s*["']([^"']+)["']` (flag `i`,
TreeDataProvider.ts line 144) matches at the head of `t`; returns the
captured value.  `([^"']+)` is greedy and stops at the first quote
character, which must then close the match. -/
def matchAttrAt (name t : List Char) : Option (List Char) :=
  match stripCI name t with
  | none => none
  | some rest1 =>
    match (rest1.dropWhile isJsSpace) with
    | '=' :: rest3 =>
      match rest3.dropWhile isJsSpace with
      | q :: rest5 =>
        if isQuote q then
          if rest5.takeWhile (fun c => ! isQuote c) = [] then none
          else
            match (rest5.dropWhile (fun c => ! isQuote c)).head? with
            | some q2 =>
              if isQuote q2 then some (rest5.takeWhile (fun c => ! isQuote c))
              else none
            | none => none
        else none
      | [] => none
    | _ => none

/-- Leftmost-match scan of the attribute regex over the attribute text,
embedding `attributes.match(regex)`. -/
def extractAttrScan (name : List Char) : List Char → Option (List Char)
  | [] => matchAttrAt name []
  | c :: cs =>
    match matchAttrAt name (c :: cs) with
    | some v => some v
    | none => extractAttrScan name cs

/-- The function `extractAttribute(attributes, attrName)` (TreeDataProvider.ts lines
143-147): the captured value of the first match, or `''` (here `[]`) when
there is no match. -/
def extractAttribute (attrs name : List Char) : List Char :=
  (extractAttrScan name attrs).getD []

/-! ### The element tree -/

/-- The `Dependency` tree node (TreeDataProvider.ts lines 163-194),
restricted to the fields the parse populates and the tree structure uses:
`tagName`, `elementId`, `className` and `children`.  The purely visual
fields (`label`, `description`, `tooltip`, `iconPath`, `collapsibleState`)
are derived display glue and are not modelled. -/
inductive Dependency where
  | mk (tagName elementId className : List Char) (children : List Dependency)

def Dependency.tagName : Dependency → List Char
  | .mk tn _ _ _ => tn

def Dependency.elementId : Dependency → List Char
  | .mk _ id _ _ => id

def Dependency.className : Dependency → List Char
  | .mk _ _ cn _ => cn

def Dependency.children : Dependency → List Dependency
  | .mk _ _ _ cs => cs

/-- The expression `className.split(' ')[0]` (TreeDataProvider.ts line 107): the text up to
the first space. -/
def splitFirst (l : List Char) : List Char := l.takeWhile (· ≠ ' ')

/-- An entry of the parser's open-element stack.  In the source the stack
holds the `Dependency` object itself and children are attached to the parent
by mutation as soon as their opening tag is seen; in this immutable embedding
the stack holds the element's data together with the children accumulated so
far (`acc`), and the attachment to the parent happens when the element is
popped (or at end of input for elements left open), which yields the same
final tree. -/
structure Frame where
  tagName : List Char
  elementId : List Char
  className : List Char
  acc : List Dependency
deriving Inhabited

/-- Parser state: the root list and the open-element stack (top = head). -/
structure ParseState where
  roots : List Dependency
  stack : List Frame

/-- Close a frame into a node. -/
def Frame.toNode (f : Frame) : Dependency :=
  .mk f.tagName f.elementId f.className f.acc

/-- Attach finished nodes at the current insertion point: the top frame's
accumulated children, or the root list when the stack is empty
(TreeDataProvider.ts lines 123-131). -/
def attachState (s : ParseState) (ns : List Dependency) : ParseState :=
  match s.stack with
  | [] => ⟨s.roots ++ ns, []⟩
  | f :: fs => ⟨s.roots, { f with acc := f.acc ++ ns } :: fs⟩

/-- Processing of one tag token (TreeDataProvider.ts lines 84-137). -/
def step (s : ParseState) (g : Tag) : ParseState :=
  if g.name.map Char.toLower = "!doctype".toList ∨ commentOpen.isPrefixOf g.fullMatch then
    s
  else if g.closing then
    match s.stack with
    | f :: fs =>
      if f.tagName = g.name.map Char.toLower then
        attachState ⟨s.roots, fs⟩ [f.toNode]
      else s
    | [] => s
  else if endsWithSlashGt g.fullMatch || g.name.map Char.toLower ∈ selfClosingTags then
    attachState s [.mk (g.name.map Char.toLower)
      (extractAttribute g.attrs ("id".toList))
      (extractAttribute g.attrs ("class".toList)) []]
  else
    { s with
      stack := ⟨g.name.map Char.toLower,
        extractAttribute g.attrs ("id".toList),
        extractAttribute g.attrs ("class".toList), []⟩ :: s.stack }

/-- End-of-input: elements still open simply keep the children they have
accumulated (spec §4.2 failure semantics); in the source they were already
attached to their parents when opened, so here the remaining frames are
folded back into the tree, the completed node of each frame becoming the
last child of the frame below it (and the bottom frame a root). -/
def finalizeInto (roots : List Dependency) (node : Dependency) :
    List Frame → List Dependency
  | [] => roots ++ [node]
  | g :: gs =>
    finalizeInto roots (.mk g.tagName g.elementId g.className (g.acc ++ [node])) gs

def finalize (s : ParseState) : List Dependency :=
  match s.stack with
  | [] => s.roots
  | f :: fs => finalizeInto s.roots f.toNode fs

/-- The function `parseHTMLHierarchy(htmlContent)` (TreeDataProvider.ts lines 67-141). -/
def parseHTMLHierarchy (t : List Char) : List Dependency :=
  finalize ((tokenize t).foldl step ⟨[], []⟩)

/-! ## Concrete documents used by the claims -/

/-- Document `<div id="outer"><div id="inner">x</div></div>` (spec §8, claim C1).
Offsets: outer open tag `[0,16)`, inner open tag `[16,32)`, text `x` at 32,
inner close `[33,39)`, outer close `[39,45)`. -/
def nestedDivDoc : List Char := "<div id=\"outer\"><div id=\"inner\">x</div></div>".toList

/-- Document `<div id="x">` — an unterminated element (claim C2). -/
def unterminatedDoc : List Char := "<div id=\"x\">".toList

/-- Document `<!-- <div id="x"></div> -->` — a commented-out element (claim C3).
The commented `<div id="x">` starts at offset 5, its closing tag ends at
offset 23. -/
def commentedDoc : List Char := "<!-- <div id=\"x\"></div> -->".toList

/-- Document `<div>x</div>` (claim C10): closing tag at `[6,12)`. -/
def simpleDivDoc : List Char := "<div>x</div>".toList

/-- Document `<div><div=x></div></div>` (claim C4): the nested opener `<div=x>` is a
tag by the anchor regex but is not matched by the nesting pattern
`<div(?:\s|>)`, because `=` is neither whitespace nor `>`. -/
def unbalancedDoc : List Char := "<div><div=x></div></div>".toList

/-! ## Claim C1 -/

/-- C1, counterexample: in `<div id="outer"><div id="inner">x</div></div>`,
at offset 16 — the first offset after the outer opening tag, i.e. between
`<div id="outer">` and `<div id="inner">` — `locateElement` does **not**
return the outer element's range `{0, 45}`: the backward scan starts at
`text[16]`, which is the `<` of the inner opening tag, so the inner div's
range `{16, 39}` is returned. -/
theorem c1_counterexample :
    findCompleteHtmlElement nestedDivDoc 16 = some ⟨16, 39⟩ ∧
    findCompleteHtmlElement nestedDivDoc 16 ≠ some ⟨0, 45⟩ := by
  constructor
  · decide
  · decide

/-- C1, amended: an offset inside the inner div's text content (offset 32)
yields the inner div's range only (innermost-match policy); at offset 16,
immediately after the outer opening tag, the result is again the *inner*
div's range (the scan starts on the inner `<`); the range spanning the
entire outer element is returned at offset 15, the index of the outer
opening tag's terminating `>`. -/
theorem c1_amended :
    findCompleteHtmlElement nestedDivDoc 32 = some ⟨16, 39⟩ ∧
    findCompleteHtmlElement nestedDivDoc 16 = some ⟨16, 39⟩ ∧
    findCompleteHtmlElement nestedDivDoc 15 = some ⟨0, 45⟩ := by
  refine ⟨by decide, by decide, by decide⟩

/-! ## Claim C3 -/

/-- C3: at offset 10, inside the comment block
`<!-- <div id="x"></div> -->`, `locateElement` returns the range
`{5, 23}` of the commented-out `<div id="x">...</div>` instead of
NOT_FOUND: the backward scan skips a `<` only when the scan position is
exactly at the `<!--` opener, so the `<` of the commented-out div (offset 5)
is accepted as an anchor. -/
theorem c3_commented_element_returned :
    findCompleteHtmlElement commentedDoc 10 = some ⟨5, 23⟩ := by decide

/-! ## Structural properties of the locator -/

theorem scanIdx_some {p : List Char → Bool} : ∀ {l : List Char} {k : Nat},
    scanIdx p l = some k → k ≤ l.length ∧ p (l.drop k) = true := by
  intro l
  induction l with
  | nil =>
    intro k h
    unfold scanIdx at h
    by_cases hp : p [] = true
    · rw [if_pos hp] at h
      cases h
      exact ⟨Nat.le_refl 0, hp⟩
    · rw [if_neg hp] at h
      exact absurd h (by simp)
  | cons c tl ih =>
    intro k h
    unfold scanIdx at h
    by_cases hp : p (c :: tl) = true
    · rw [if_pos hp] at h
      cases h
      exact ⟨Nat.zero_le _, hp⟩
    · rw [if_neg hp] at h
      rcases hmap : scanIdx p tl with _ | k'
      · rw [hmap] at h; exact absurd h (by simp)
      · rw [hmap] at h
        have hk : k' + 1 = k := by simpa using h
        subst hk
        rcases ih hmap with ⟨h1, h2⟩
        exact ⟨by simpa using Nat.succ_le_succ h1, by simpa using h2⟩

theorem isPrefixOf_length_le : ∀ {a b : List Char}, a.isPrefixOf b = true →
    a.length ≤ b.length := by
  intro a
  induction a with
  | nil => intro b _; simp
  | cons x xs ih =>
    intro b h
    rcases b with _ | ⟨y, ys⟩
    · exact absurd h (by simp [List.isPrefixOf])
    · simp only [List.isPrefixOf, Bool.and_eq_true] at h
      simpa using Nat.succ_le_succ (ih h.2)

theorem findSubstrFrom_some {t pat : List Char} {s c : Nat} (hpat : pat ≠ [])
    (h : findSubstrFrom t pat s = some c) :
    s ≤ c ∧ c + pat.length ≤ t.length := by
  unfold findSubstrFrom at h
  rcases hs : scanIdx (fun l => pat.isPrefixOf l) (t.drop s) with _ | k
  · rw [hs] at h; exact absurd h (by simp)
  · rw [hs] at h
    have hc : s + k = c := by simpa using h
    subst hc
    rcases scanIdx_some hs with ⟨h1, h2⟩
    have hpre : pat.isPrefixOf ((t.drop s).drop k) = true := by simpa using h2
    rw [List.drop_drop] at hpre
    have hlen : pat.length ≤ (t.drop (s + k)).length :=
      isPrefixOf_length_le hpre
    rw [List.length_drop] at hlen
    have hpos : 0 < pat.length := List.length_pos.mpr hpat
    exact ⟨Nat.le_add_right s k, by omega⟩

theorem findOpenFrom_ge {t name : List Char} {s p : Nat}
    (h : findOpenFrom t name s = some p) : s ≤ p := by
  unfold findOpenFrom at h
  rcases hs : scanIdx (openPatAt name) (t.drop s) with _ | k
  · rw [hs] at h; exact absurd h (by simp)
  · rw [hs] at h
    have : s + k = p := by simpa using h
    omega

theorem indexOfCharFrom_some {t : List Char} {ch : Char} {s e : Nat}
    (h : indexOfCharFrom t ch s = some e) :
    s ≤ e ∧ t.get? e = some ch := by
  unfold indexOfCharFrom at h
  rcases hs : scanIdx (fun l => l.head? = some ch) (t.drop s) with _ | k
  · rw [hs] at h; exact absurd h (by simp)
  · rw [hs] at h
    have hc : s + k = e := by simpa using h
    subst hc
    rcases scanIdx_some hs with ⟨_, h2⟩
    have h3 : ((t.drop s).drop k).head? = some ch := by simpa using h2
    rw [List.drop_drop, ← List.get?_zero, List.get?_drop] at h3
    refine ⟨Nat.le_add_right s k, ?_⟩
    simpa [Nat.add_comm, Nat.add_assoc] using h3

/-- The closing tag string is never empty. -/
theorem closingTagOf_ne_nil (name : List Char) : closingTagOf name ≠ [] := by
  simp [closingTagOf]

theorem closingTagOf_length (name : List Char) :
    (closingTagOf name).length = name.length + 3 := by
  simp [closingTagOf]

/-- Success of the matching-closing-tag loop yields a strictly larger end
position bounded by the text length. -/
theorem matchCloseF_some {t name : List Char} :
    ∀ {fuel d s e : Nat}, matchCloseF t name fuel d s = some e →
      s < e ∧ e ≤ t.length := by
  intro fuel
  induction fuel with
  | zero => intro d s e h; exact absurd h (by simp [matchCloseF])
  | succ fuel ih =>
    intro d s e h
    unfold matchCloseF at h
    split at h
    · exact absurd h (by simp)
    · next hds =>
      split at h
      · exact absurd h (by simp)
      · next c hc =>
        rcases findSubstrFrom_some (closingTagOf_ne_nil name) hc with ⟨hsc, hcl⟩
        rw [closingTagOf_length] at hcl
        split at h
        · next p hp =>
          have hsp := findOpenFrom_ge hp
          split at h
          · rcases ih h with ⟨h1, h2⟩
            omega
          · split at h
            · cases h
              rw [closingTagOf_length]
              omega
            · rcases ih h with ⟨h1, h2⟩
              rw [closingTagOf_length] at h1
              omega
        · split at h
          · cases h
            rw [closingTagOf_length]
            omega
          · rcases ih h with ⟨h1, h2⟩
            rw [closingTagOf_length] at h1
            omega

/-- Whenever the backward-search step finds an anchor, the anchor position
holds a `<` beginning a tag that the anchor regex accepts. -/
theorem stepBack_found {t : List Char} {i : Nat} {nm : List Char}
    (h : stepBack t i = .found nm) :
    t.get? i = some '<' ∧ matchOpenTag (t.drop i) = some nm := by
  unfold stepBack at h
  split at h
  · next hlt =>
    split at h
    · exact absurd h (by simp)
    · split at h
      · next nm' hm =>
        cases h
        exact ⟨hlt.1, hm⟩
      · exact absurd h (by simp)
  · split at h
    · split at h <;> exact absurd h (by simp)
    · exact absurd h (by simp)

theorem searchBack_found {t : List Char} : ∀ {off i : Nat} {nm : List Char},
    searchBack t off = some (i, nm) →
    ∃ nm0, stepBack t i = .found nm0 ∧ nm = nm0.map Char.toLower := by
  intro off
  induction off with
  | zero =>
    intro i nm h
    unfold searchBack at h
    split at h
    · next nm0 hst =>
      cases h
      exact ⟨nm0, hst, rfl⟩
    · exact absurd h (by simp)
  | succ off ih =>
    intro i nm h
    unfold searchBack at h
    split at h
    · next nm0 hst =>
      cases h
      exact ⟨nm0, hst, rfl⟩
    · exact absurd h (by simp)
    · exact ih h

theorem searchFwdF_found {t : List Char} : ∀ {fuel i j : Nat} {nm : List Char},
    searchFwdF t fuel i = some (j, nm) →
    t.get? j = some '<' ∧
      ∃ nm0, matchOpenTag (t.drop j) = some nm0 ∧ nm = nm0.map Char.toLower := by
  intro fuel
  induction fuel with
  | zero => intro i j nm h; exact absurd h (by simp [searchFwdF])
  | succ fuel ih =>
    intro i j nm h
    unfold searchFwdF at h
    split at h
    · split at h
      · next hlt =>
        split at h
        · exact ih h
        · rcases hm : matchOpenTag (t.drop i) with _ | nm'
          · rw [hm] at h; exact ih h
          · rw [hm] at h
            cases h
            exact ⟨hlt.1, nm', hm, rfl⟩
      · exact ih h
    · exact absurd h (by simp)

/-- Any anchor returned by the combined search points at a `<` beginning a
tag accepted by the anchor regex, with the lower-cased captured name. -/
theorem anchorSearch_found {t : List Char} {off i : Nat} {nm : List Char}
    (h : anchorSearch t off = some (i, nm)) :
    t.get? i = some '<' ∧
      ∃ nm0, matchOpenTag (t.drop i) = some nm0 ∧ nm = nm0.map Char.toLower := by
  unfold anchorSearch at h
  rcases hb : searchBack t off with _ | ⟨j, nm'⟩
  · rw [hb] at h
    exact searchFwdF_found h
  · rw [hb] at h
    cases h
    rcases searchBack_found hb with ⟨nm0, h1, h2⟩
    rcases stepBack_found h1 with ⟨h3, h4⟩
    exact ⟨h3, nm0, h4, h2⟩

/-! ## Claim C2 -/

/-- C2: whenever the anchor opening tag is neither self-closing nor a void
element and the matching-closing-tag loop fails (no same-name closing tag
brings the depth counter to zero before end of text), `locateElement`
returns NOT_FOUND rather than any partial range; in particular, on the
document `<div id="x">` consisting of a single unterminated tag, the result
is NOT_FOUND for every offset up to the document length. -/
theorem c2_unterminated_not_found :
    (∀ (t : List Char) (off ts : Nat) (nm : List Char) (e : Nat),
      anchorSearch t off = some (ts, nm) →
      indexOfCharFrom t '>' ts = some e →
      endsWithSlashGt ((t.drop ts).take (e + 1 - ts)) = false →
      nm ∉ voidElements →
      matchClose t nm (e + 1) 1 = none →
      findCompleteHtmlElement t off = none) ∧
    (∀ off, off ≤ 12 → findCompleteHtmlElement unterminatedDoc off = none) := by
  constructor
  · intro t off ts nm e h1 h2 h3 h4 h5
    unfold findCompleteHtmlElement
    rw [h1]
    simp only
    rw [h2]
    simp only [h3, Bool.false_eq_true, if_false]
    rw [if_neg h4, h5]
  · decide

/-- C2 witness: the locator fails on `<div id="x">` both via the general
statement (instantiated at offset 3, where the anchor is the unterminated
`div` at position 0) and via the concrete bound at offset 12. -/
theorem c2_unterminated_not_found_witness :
    findCompleteHtmlElement unterminatedDoc 3 = none ∧
    findCompleteHtmlElement unterminatedDoc 12 = none :=
  ⟨c2_unterminated_not_found.1 unterminatedDoc 3 0 ("div".toList) 11
      (by decide) (by decide) (by decide) (by decide) (by decide),
   c2_unterminated_not_found.2 12 (by decide)⟩

/-! ## Claim C4 -/

/-- Number of positions of `sub` at which a non-self-closing opening tag
with the given (lower-cased) name starts, following the spec's notion of an
opening tag (§4.1 tag pattern; self-closing tags excluded, since they are
complete by themselves). -/
def isOpenTagAt (sub name : List Char) (p : Nat) : Bool :=
  match matchOpenTag (sub.drop p) with
  | some nm =>
    nm.map Char.toLower = name &&
      (match indexOfCharFrom sub '>' p with
       | some e => ! endsWithSlashGt ((sub.drop p).take (e + 1 - p))
       | none => false)
  | none => false

/-- Whether a closing tag `</name>` starts at position `p` of `sub`. -/
def isCloseTagAt (sub name : List Char) (p : Nat) : Bool :=
  (closingTagOf name).isPrefixOf (sub.drop p)

/-- Modelled from the spec's words (§3 ElementRange invariant): the
"tag-balance for `tagName`" of a substring — the number of same-name
opening tags minus the number of same-name closing tags occurring in it. -/
def specTagBalance (sub name : List Char) : Int :=
  (((List.range sub.length).filter (isOpenTagAt sub name)).length : Int) -
  (((List.range sub.length).filter (isCloseTagAt sub name)).length : Int)

/-- C4, counterexample: on `<div><div=x></div></div>` at offset 0 the
locator returns the range `{0, 18}`, whose substring `<div><div=x></div>`
contains two `div` opening tags and only one closing tag — the tag-balance
is 1, not 0.  The nested-opener search only recognises `<div` followed by
whitespace or `>`, so the opener `<div=x>` is not depth-counted even though
the anchor regex accepts it as an opening tag. -/
theorem c4_counterexample :
    findCompleteHtmlElement unbalancedDoc 0 = some ⟨0, 18⟩ ∧
    specTagBalance ((unbalancedDoc.drop 0).take 18) ("div".toList) ≠ 0 := by
  constructor
  · decide
  · decide

/-- C4, amended: whenever `locateElement` returns a range `{start, end}`,
the bounds invariant `0 ≤ start < end ≤ length(text)` holds and the
substring begins at the `<` of an opening tag accepted by the anchor regex;
the zero-tag-balance (complete-element) part of the claim does not hold for
every text (see the counterexample). -/
theorem c4_range_bounds :
    ∀ (t : List Char) (off : Nat) (r : ElementRange),
      findCompleteHtmlElement t off = some r →
      r.start < r.stop ∧ r.stop ≤ t.length ∧
        t.get? r.start = some '<' ∧ (matchOpenTag (t.drop r.start)).isSome := by
  intro t off r h
  unfold findCompleteHtmlElement at h
  split at h
  · exact absurd h (by simp)
  · next ts nm heq =>
    split at h
    · exact absurd h (by simp)
    · next openEnd hidx =>
      rcases anchorSearch_found heq with ⟨hlt, nm0, hmo, hnm⟩
      rcases indexOfCharFrom_some hidx with ⟨hse, hgt⟩
      have hne : ts ≠ openEnd := by
        intro hh
        rw [hh, hgt] at hlt
        exact absurd (Option.some.inj hlt) (by decide)
      have hlt2 : ts < openEnd := Nat.lt_of_le_of_ne hse hne
      obtain ⟨hlen, -⟩ := List.get?_eq_some.mp hgt
      have hsome : (matchOpenTag (t.drop ts)).isSome := by rw [hmo]; rfl
      split at h
      · cases h
        dsimp only
        exact ⟨by omega, by omega, hlt, hsome⟩
      · split at h
        · cases h
          dsimp only
          exact ⟨by omega, by omega, hlt, hsome⟩
        · split at h
          · next e hmc =>
            cases h
            unfold matchClose at hmc
            rcases matchCloseF_some hmc with ⟨h1, h2⟩
            dsimp only
            exact ⟨by omega, h2, hlt, hsome⟩
          · exact absurd h (by simp)

/-- C4 witness: the bounds invariant evaluated on `<div>x</div>` at
offset 5, where the locator returns `{0, 12}`. -/
theorem c4_range_bounds_witness :
    (0 : Nat) < 12 ∧ 12 ≤ simpleDivDoc.length ∧
      simpleDivDoc.get? 0 = some '<' ∧
      (matchOpenTag (simpleDivDoc.drop 0)).isSome :=
  c4_range_bounds simpleDivDoc 5 ⟨0, 12⟩ (by decide)

/-! ## Claim C10 -/

/-- C10: when the backward scan stands on the `<` of a closing tag (the next
character is `/`), it does not stop there: the `<` is skipped and the scan
continues one position further back — so an offset strictly inside a closing
tag can still anchor on the matching earlier opening tag.  Concretely, in
`<div>x</div>` every offset on a character of `</div>` before its `>`
(offsets 6-10) yields the whole element's range `{0, 12}`. -/
theorem c10_closing_tag_skipped :
    (∀ (t : List Char) (k : Nat),
      t.get? (k + 1) = some '<' → t.get? (k + 2) = some '/' →
      searchBack t (k + 1) = searchBack t k) ∧
    (∀ off, off ≤ 10 → 6 ≤ off →
      findCompleteHtmlElement simpleDivDoc off = some ⟨0, 12⟩) := by
  constructor
  · intro t k h1 h2
    obtain ⟨hlen, -⟩ := List.get?_eq_some.mp h2
    have hstep : stepBack t (k + 1) = .next := by
      unfold stepBack
      rw [if_pos ⟨h1, by omega⟩, if_pos (Or.inr h2)]
    simp only [searchBack, hstep]
  · decide

/-- C10 witness: the skip applied at the closing tag's `<` of
`<div>x</div>` (position 6, so `k = 5`), and the concrete range at
offset 7 (the `/` of `</div>`). -/
theorem c10_closing_tag_skipped_witness :
    searchBack simpleDivDoc 6 = searchBack simpleDivDoc 5 ∧
    findCompleteHtmlElement simpleDivDoc 7 = some ⟨0, 12⟩ :=
  ⟨c10_closing_tag_skipped.1 simpleDivDoc 5 (by decide) (by decide),
   c10_closing_tag_skipped.2 7 (by decide) (by decide)⟩

/-! ## Claim C6 -/

/-- A closing tag's match text starts `</`, never `<!--`. -/
theorem closing_fullMatch_not_comment {g : Tag} (hc : g.closing = true) :
    commentOpen.isPrefixOf g.fullMatch = false := by
  simp [Tag.fullMatch, hc, commentOpen, List.isPrefixOf]

/-- C6: during tree building, a closing-tag token pops the open-element
stack if and only if the stack is non-empty and the top frame's `tagName`
equals the token's (lower-cased) tag name; on a pop the rest of the stack
keeps its length and its tag names, and when the top does not match (or the
stack is empty) the whole state — stack and roots — is left completely
unchanged and the scan continues (no error is possible: `step` is total).
The token is assumed not to be the dead `!doctype` guard case, which the
tag regex can never produce. -/
theorem c6_closing_pop_iff :
    ∀ (s : ParseState) (g : Tag), g.closing = true →
      g.name.map Char.toLower ≠ "!doctype".toList →
      (∀ f fs, s.stack = f :: fs → f.tagName = g.name.map Char.toLower →
        (step s g).stack.length = fs.length ∧
        (step s g).stack.map Frame.tagName = fs.map Frame.tagName) ∧
      (s.stack = [] → step s g = s) ∧
      (∀ f fs, s.stack = f :: fs → f.tagName ≠ g.name.map Char.toLower →
        step s g = s) := by
  intro s g hc hnd
  have hguard : ¬ (g.name.map Char.toLower = "!doctype".toList ∨
      commentOpen.isPrefixOf g.fullMatch = true) := by
    rw [closing_fullMatch_not_comment hc]
    intro hor
    rcases hor with hor | hor
    · exact hnd hor
    · exact absurd hor (by simp)
  refine ⟨?_, ?_, ?_⟩
  · intro f fs hst hname
    unfold step
    rw [if_neg hguard, hc]
    simp only [if_true, hst, hname, if_pos rfl]
    unfold attachState
    rcases fs with _ | ⟨f2, fs2⟩ <;> simp
  · intro hst
    unfold step
    rw [if_neg hguard, hc]
    simp only [if_true, hst]
  · intro f fs hst hname
    unfold step
    rw [if_neg hguard, hc]
    simp only [if_true, hst, hname, if_neg]
    simp [hname]

/-- C6 witness: a matching closing token pops the singleton stack, and a
mismatched one leaves the state untouched. -/
theorem c6_closing_pop_iff_witness :
    (step ⟨[], [⟨"div".toList, [], [], []⟩]⟩ ⟨true, "div".toList, []⟩).stack.length = 0 ∧
    step ⟨[], [⟨"div".toList, [], [], []⟩]⟩ ⟨true, "p".toList, []⟩ =
      ⟨[], [⟨"div".toList, [], [], []⟩]⟩ :=
  ⟨((c6_closing_pop_iff ⟨[], [⟨"div".toList, [], [], []⟩]⟩ ⟨true, "div".toList, []⟩
      rfl (by decide)).1 ⟨"div".toList, [], [], []⟩ [] rfl (by decide)).1,
   (c6_closing_pop_iff ⟨[], [⟨"div".toList, [], [], []⟩]⟩ ⟨true, "p".toList, []⟩
      rfl (by decide)).2.2 ⟨"div".toList, [], [], []⟩ [] rfl (by decide)⟩

/-! ## Claim C7 -/

mutual

/-- Every node of the tree whose tag name is in the void-element set has no
children. -/
def voidLeafOk : Dependency → Bool
  | .mk tn _ _ cs =>
    (!(decide (tn ∈ selfClosingTags)) || cs.isEmpty) && voidLeafOkList cs

def voidLeafOkList : List Dependency → Bool
  | [] => true
  | d :: ds => voidLeafOk d && voidLeafOkList ds

end

/-- A stack frame never carries a void tag name, and its accumulated
children satisfy the void-leaf property. -/
def frameOk (f : Frame) : Bool :=
  voidLeafOkList f.acc && !(decide (f.tagName ∈ selfClosingTags))

def stateOk (s : ParseState) : Bool :=
  voidLeafOkList s.roots && s.stack.all frameOk

theorem voidLeafOkList_append {a b : List Dependency} :
    voidLeafOkList (a ++ b) = (voidLeafOkList a && voidLeafOkList b) := by
  induction a with
  | nil => simp [voidLeafOkList]
  | cons d ds ih => simp [voidLeafOkList, ih, Bool.and_assoc]

theorem attachState_ok {s : ParseState} {ns : List Dependency}
    (h : stateOk s = true) (hn : voidLeafOkList ns = true) :
    stateOk (attachState s ns) = true := by
  unfold stateOk at h ⊢
  unfold attachState
  rcases hst : s.stack with _ | ⟨f, fs⟩
  · rw [hst] at h
    simp only [List.all_nil, Bool.and_true] at h
    simp [voidLeafOkList_append, h, hn]
  · rw [hst] at h
    simp only [List.all_cons, Bool.and_eq_true] at h
    rcases h with ⟨h1, h2, h3⟩
    unfold frameOk at h2
    simp only [Bool.and_eq_true] at h2
    simp [h1, h3, frameOk, voidLeafOkList_append, h2.1, h2.2, hn]

theorem Frame.toNode_ok {f : Frame} (h : frameOk f = true) :
    voidLeafOk f.toNode = true := by
  unfold frameOk at h
  simp only [Bool.and_eq_true] at h
  rcases f with ⟨tn, id, cn, acc⟩
  simp only [Frame.toNode, voidLeafOk]
  simp only [frameOk] at h
  simp [h.1, h.2]

theorem step_ok {s : ParseState} {g : Tag} (h : stateOk s = true) :
    stateOk (step s g) = true := by
  unfold step
  split
  · exact h
  · split
    · split
      · next f fs hst =>
        split
        · apply attachState_ok
          · unfold stateOk at h ⊢
            rw [hst] at h
            simp only [List.all_cons, Bool.and_eq_true] at h
            simp [h.1, h.2.2]
          · have hf : frameOk f = true := by
              unfold stateOk at h
              rw [hst] at h
              simp only [List.all_cons, Bool.and_eq_true] at h
              exact h.2.1
            simp [voidLeafOkList, Frame.toNode_ok hf]
        · exact h
      · exact h
    · split
      · apply attachState_ok h
        simp [voidLeafOkList, voidLeafOk]
      · next hsc =>
        unfold stateOk at h ⊢
        simp only [Bool.and_eq_true] at h
        simp only [List.all_cons, Bool.and_eq_true]
        refine ⟨h.1, ?_, h.2⟩
        simp only [Bool.or_eq_true, not_or] at hsc
        simp [frameOk, voidLeafOkList]
        intro hmem
        exact hsc.2 (by simpa using hmem)

theorem foldl_step_ok {gs : List Tag} : ∀ {s : ParseState},
    stateOk s = true → stateOk (gs.foldl step s) = true := by
  induction gs with
  | nil => intro s h; exact h
  | cons g gs ih => intro s h; exact ih (step_ok h)

theorem finalizeInto_ok {roots : List Dependency} {node : Dependency} :
    ∀ {st : List Frame}, voidLeafOkList roots = true → voidLeafOk node = true →
      st.all frameOk = true → voidLeafOkList (finalizeInto roots node st) = true := by
  intro st
  induction st generalizing node with
  | nil =>
    intro hr hn _
    simp [finalizeInto, voidLeafOkList_append, hr, voidLeafOkList, hn]
  | cons g gs ih =>
    intro hr hn hs
    simp only [List.all_cons, Bool.and_eq_true] at hs
    rcases hs with ⟨hg, hgs⟩
    unfold finalizeInto
    apply ih hr ?_ hgs
    unfold frameOk at hg
    simp only [Bool.and_eq_true] at hg
    simp [voidLeafOk, voidLeafOkList_append, hg.1, voidLeafOkList, hn, hg.2]

theorem finalize_ok {s : ParseState} (h : stateOk s = true) :
    voidLeafOkList (finalize s) = true := by
  unfold stateOk at h
  simp only [Bool.and_eq_true] at h
  unfold finalize
  rcases hst : s.stack with _ | ⟨f, fs⟩
  · exact h.1
  · rw [hst] at h
    simp only [List.all_cons, Bool.and_eq_true] at h
    exact finalizeInto_ok h.1 (Frame.toNode_ok h.2.1) h.2.2

/-- C7: (a) in the forest produced by the Tree Builder on any input, every
node whose tag name is in the void/self-closing set has an empty children
list; (b) a non-closing token that is self-closing (syntactic `/>`) or has
a void tag name never pushes a frame: the stack's frames (their names and
their count) are unchanged by that token. -/
theorem c7_void_leaves_never_pushed :
    (∀ t : List Char, voidLeafOkList (parseHTMLHierarchy t) = true) ∧
    (∀ (s : ParseState) (g : Tag), g.closing = false →
      (endsWithSlashGt g.fullMatch = true ∨
        g.name.map Char.toLower ∈ selfClosingTags) →
      (step s g).stack.map Frame.tagName = s.stack.map Frame.tagName) := by
  constructor
  · intro t
    exact finalize_ok (@foldl_step_ok (tokenize t) ⟨[], []⟩ (by decide))
  · intro s g hc hsc
    unfold step
    split
    · rfl
    · rw [hc]
      simp only [Bool.false_eq_true, if_false]
      rw [if_pos]
      · unfold attachState
        rcases s.stack with _ | ⟨f, fs⟩ <;> simp
      · rcases hsc with hsc | hsc
        · simp [hsc]
        · simp [hsc]

/-- C7 witness: the builder's forest for `<div><br><img/></div>` satisfies
the void-leaf property, and an `img` opening token pushes nothing. -/
theorem c7_void_leaves_never_pushed_witness :
    voidLeafOkList (parseHTMLHierarchy ("<div><br><img/></div>".toList)) = true ∧
    (step ⟨[], []⟩ ⟨false, "img".toList, []⟩).stack.map Frame.tagName = [] :=
  ⟨c7_void_leaves_never_pushed.1 ("<div><br><img/></div>".toList),
   c7_void_leaves_never_pushed.2 ⟨[], []⟩ ⟨false, "img".toList, []⟩ rfl
     (Or.inr (by decide))⟩

/-! ## Claim C8 -/

theorem stripCI_some : ∀ {name t r : List Char}, stripCI name t = some r →
    ∃ pre, t = pre ++ r := by
  intro name
  induction name with
  | nil =>
    intro t r h
    cases h
    exact ⟨[], rfl⟩
  | cons a as ih =>
    intro t r h
    rcases t with _ | ⟨b, bs⟩
    · exact absurd h (by simp [stripCI])
    · unfold stripCI at h
      split at h
      · rcases ih h with ⟨pre, hbs⟩
        exact ⟨b :: pre, by simp [hbs]⟩
      · exact absurd h (by simp)

/-- A successful match of the attribute-value regex yields a nonempty,
quote-free value delimited by two quote characters in the attribute text. -/
theorem matchAttrAt_some {name t v : List Char} (h : matchAttrAt name t = some v) :
    v ≠ [] ∧ (∀ c ∈ v, isQuote c = false) ∧
      ∃ pre q1 q2 suf, isQuote q1 = true ∧ isQuote q2 = true ∧
        t = pre ++ q1 :: (v ++ q2 :: suf) := by
  unfold matchAttrAt at h
  split at h
  · exact absurd h (by simp)
  · next rest1 hstrip =>
    split at h
    · next rest3 hdrop =>
      split at h
      · next q rest5 hdrop2 =>
        split at h
        · next hq =>
          split at h
          · exact absurd h (by simp)
          · next hne =>
            split at h
            · next q2 hq2head =>
              split at h
              · next hq2 =>
                cases h
                refine ⟨hne, ?_, ?_⟩
                · intro c hc
                  have := List.mem_takeWhile_imp hc
                  simpa using this
                · rcases stripCI_some hstrip with ⟨pre0, ht⟩
                  rcases hd5 : rest5.dropWhile (fun c => ! isQuote c) with _ | ⟨q2', suf⟩
                  · rw [hd5] at hq2head
                    exact absurd hq2head (by simp)
                  · rw [hd5] at hq2head
                    have hq2e : q2' = q2 := by simpa using hq2head
                    have h5 : rest5 = rest5.takeWhile (fun c => ! isQuote c) ++ q2 :: suf := by
                      conv_lhs => rw [← List.takeWhile_append_dropWhile
                        (p := fun c => ! isQuote c) (l := rest5)]
                      rw [hd5, hq2e]
                    have h3 : rest3 = rest3.takeWhile isJsSpace ++ (q :: rest5) := by
                      conv_lhs => rw [← List.takeWhile_append_dropWhile
                        (p := isJsSpace) (l := rest3)]
                      rw [hdrop2]
                    have h1 : rest1 = rest1.takeWhile isJsSpace ++ ('=' :: rest3) := by
                      conv_lhs => rw [← List.takeWhile_append_dropWhile
                        (p := isJsSpace) (l := rest1)]
                      rw [hdrop]
                    refine ⟨pre0 ++ rest1.takeWhile isJsSpace ++
                      '=' :: rest3.takeWhile isJsSpace, q, q2, suf, hq, hq2, ?_⟩
                    set v := rest5.takeWhile (fun c => ! isQuote c) with hv
                    set sp3 := rest3.takeWhile isJsSpace with hsp3
                    set sp1 := rest1.takeWhile isJsSpace with hsp1
                    rw [ht, h1, h3, h5]
                    simp
              · exact absurd h (by simp)
            · exact absurd h (by simp)
        · exact absurd h (by simp)
      · exact absurd h (by simp)
    · exact absurd h (by simp)

theorem extractAttrScan_some : ∀ {attrs : List Char} {name v : List Char},
    extractAttrScan name attrs = some v →
    v ≠ [] ∧ (∀ c ∈ v, isQuote c = false) ∧
      ∃ pre q1 q2 suf, isQuote q1 = true ∧ isQuote q2 = true ∧
        attrs = pre ++ q1 :: (v ++ q2 :: suf) := by
  intro attrs
  induction attrs with
  | nil =>
    intro name v h
    exact matchAttrAt_some h
  | cons c cs ih =>
    intro name v h
    unfold extractAttrScan at h
    split at h
    · next hm =>
      cases h
      exact matchAttrAt_some hm
    · rcases ih h with ⟨h1, h2, pre, q1, q2, suf, hq1, hq2, hdec⟩
      exact ⟨h1, h2, c :: pre, q1, q2, suf, hq1, hq2, by simp [hdec]⟩

/-- The attribute text of the claim's example tag
`<span class="foo bar" id="s1">`. -/
def spanAttrs : List Char := " class=\"foo bar\" id=\"s1\"".toList

/-- Document `<span class="foo bar" id="s1">` (spec §8). -/
def spanDoc : List Char := "<span class=\"foo bar\" id=\"s1\">".toList

/-- C8: attribute extraction returns a value only for single- or
double-quoted attributes — any successful extraction is a nonempty,
quote-free value enclosed by two quote characters of the attribute text —
while an unquoted (`id=s1`) or missing attribute yields the absent value.
For `<span class="foo bar" id="s1">`, the builder extracts `id = "s1"` and
`class = "foo bar"`, whose first class name (`split(' ')[0]`) is `foo`. -/
theorem c8_attribute_extraction :
    (∀ (attrs name v : List Char), extractAttrScan name attrs = some v →
      v ≠ [] ∧ (∀ c ∈ v, isQuote c = false) ∧
      ∃ pre q1 q2 suf, isQuote q1 = true ∧ isQuote q2 = true ∧
        attrs = pre ++ q1 :: (v ++ q2 :: suf)) ∧
    (parseHTMLHierarchy spanDoc).map
        (fun d => (d.tagName, d.elementId, d.className, d.children.length)) =
      [("span".toList, "s1".toList, "foo bar".toList, 0)] ∧
    splitFirst (extractAttribute spanAttrs ("class".toList)) = "foo".toList ∧
    extractAttrScan ("id".toList) (" id=s1".toList) = none := by
  refine ⟨?_, ?_, ?_, ?_⟩
  · intro attrs name v h
    exact extractAttrScan_some h
  · decide
  · decide
  · decide

/-- C8 witness: the quoted-value decomposition instantiated on the example
attributes, where `id` extracts the value `s1`. -/
theorem c8_attribute_extraction_witness :
    ("s1".toList ≠ [] ∧ (∀ c ∈ "s1".toList, isQuote c = false) ∧
      ∃ pre q1 q2 suf, isQuote q1 = true ∧ isQuote q2 = true ∧
        spanAttrs = pre ++ q1 :: ("s1".toList ++ q2 :: suf)) :=
  c8_attribute_extraction.1 spanAttrs ("id".toList) ("s1".toList) (by rfl)

/-! ## Claim C9 -/

theorem dropWhile_split {p : Char → Bool} (hp : p '>' = false) :
    ∀ (xs r : List Char), ∃ xs', (xs ++ '>' :: r).dropWhile p = xs' ++ '>' :: r ∧
      ∀ c ∈ xs', c ∈ xs := by
  intro xs r
  induction xs with
  | nil =>
    refine ⟨[], ?_, by simp⟩
    simp [List.dropWhile_cons, hp]
  | cons a as ih =>
    by_cases hpa : p a = true
    · rcases ih with ⟨xs', h1, h2⟩
      refine ⟨xs', ?_, fun c hc => List.mem_cons_of_mem a (h2 c hc)⟩
      simp [List.dropWhile_cons, hpa, h1]
    · refine ⟨a :: as, ?_, fun c hc => hc⟩
      simp [List.dropWhile_cons, hpa]

theorem dropWhile_ne_gt : ∀ (xs r : List Char), (∀ c ∈ xs, ¬(c = '>')) →
    (xs ++ '>' :: r).dropWhile (· ≠ '>') = '>' :: r := by
  intro xs r
  induction xs with
  | nil => intro _; simp [List.dropWhile_cons]
  | cons a as ih =>
    intro h
    have ha : ¬(a = '>') := h a (by simp)
    simp only [List.cons_append, List.dropWhile_cons]
    rw [if_pos (by simpa using ha)]
    exact ih (fun c hc => h c (List.mem_cons_of_mem a hc))

theorem isWordChar_ne_gt {c : Char} (h : isWordChar c = true) : ¬(c = '>') := by
  intro hc
  subst hc
  exact absurd h (by decide)

theorem isNameChar_ne_gt {c : Char} (h : isNameChar c = true) : ¬(c = '>') := by
  intro hc
  subst hc
  exact absurd h (by decide)

/-- The helper `tagAfter` succeeds exactly on a nonempty `\w+` run followed by a
`>`-free run and a `>`. -/
theorem tagAfter_isSome_iff (b : Bool) (rest1 : List Char) :
    (tagAfter b rest1).isSome = true ↔
      ∃ name attrs rest, name ≠ [] ∧ (∀ c ∈ name, isWordChar c = true) ∧
        (∀ c ∈ attrs, ¬(c = '>')) ∧ rest1 = name ++ attrs ++ '>' :: rest := by
  constructor
  · intro h
    unfold tagAfter at h
    split at h
    · exact absurd h (by simp)
    · next hne =>
      split at h
      · next g0 rest4 heq =>
        split at h
        · next hg =>
          subst hg
          refine ⟨rest1.takeWhile isWordChar,
            (rest1.dropWhile isWordChar).takeWhile (· ≠ '>'), rest4, hne,
            fun c hc => List.mem_takeWhile_imp hc, ?_, ?_⟩
          · intro c hc
            have := List.mem_takeWhile_imp hc
            simpa using this
          · conv_lhs => rw [← List.takeWhile_append_dropWhile
              (p := isWordChar) (l := rest1)]
            conv_lhs => rw [← List.takeWhile_append_dropWhile
              (p := (· ≠ '>')) (l := rest1.dropWhile isWordChar)]
            rw [heq]
            simp
        · exact absurd h (by simp)
      · exact absurd h (by simp)
  · rintro ⟨name, attrs, rest, hne, hw, ha, rfl⟩
    unfold tagAfter
    rcases name with _ | ⟨n0, ns⟩
    · exact absurd rfl hne
    · have hw0 : isWordChar n0 = true := hw n0 (by simp)
      have htk : ((n0 :: ns) ++ attrs ++ '>' :: rest).takeWhile isWordChar ≠ [] := by
        simp [List.takeWhile_cons, hw0]
      rw [if_neg htk]
      have hxs : ∀ c ∈ (ns ++ attrs), ¬(c = '>') := by
        intro c hc
        rcases List.mem_append.mp hc with hc | hc
        · exact isWordChar_ne_gt (hw c (by simp [hc]))
        · exact ha c hc
      rcases dropWhile_split (p := isWordChar) (by decide) (ns ++ attrs) rest
        with ⟨xs', hd, hsub⟩
      have hstep : ((n0 :: ns) ++ attrs ++ '>' :: rest).dropWhile isWordChar =
          xs' ++ '>' :: rest := by
        simp only [List.cons_append, List.dropWhile_cons, hw0, if_pos]
        simpa [List.append_assoc] using hd
      rw [hstep, dropWhile_ne_gt xs' rest (fun c hc => hxs c (hsub c hc))]
      simp

/-- The locator's anchor regex succeeds exactly on `<`, an ASCII letter,
a run of letters/digits/hyphens, a `>`-free run and a `>`. -/
theorem matchOpenTag_isSome_iff (l : List Char) :
    (matchOpenTag l).isSome = true ↔
      ∃ c0 cs attrs rest, c0.isAlpha = true ∧ (∀ c ∈ cs, isNameChar c = true) ∧
        (∀ c ∈ attrs, ¬(c = '>')) ∧ l = '<' :: c0 :: (cs ++ attrs ++ '>' :: rest) := by
  constructor
  · intro h
    rcases l with _ | ⟨c1, l1⟩
    · exact absurd h (by simp [matchOpenTag])
    · rcases l1 with _ | ⟨c0, rest'⟩
      · exact absurd h (by simp [matchOpenTag])
      · by_cases h1 : c1 = '<'
        · subst h1
          unfold matchOpenTag at h
          dsimp only at h
          rw [if_pos rfl] at h
          by_cases halpha : c0.isAlpha = true
          · rw [if_pos halpha] at h
            rcases hd : (rest'.dropWhile isNameChar).dropWhile (· ≠ '>')
              with _ | ⟨z, zs⟩
            · rw [hd] at h
              exact absurd h (by simp)
            · rw [hd] at h
              by_cases hz : z = '>'
              · subst hz
                refine ⟨c0, rest'.takeWhile isNameChar,
                  (rest'.dropWhile isNameChar).takeWhile (· ≠ '>'), zs, halpha,
                  fun c hc => List.mem_takeWhile_imp hc, ?_, ?_⟩
                · intro c hc
                  have := List.mem_takeWhile_imp hc
                  simpa using this
                · have hr : rest' = rest'.takeWhile isNameChar ++
                      ((rest'.dropWhile isNameChar).takeWhile (· ≠ '>') ++
                        '>' :: zs) := by
                    conv_lhs => rw [← List.takeWhile_append_dropWhile
                      (p := isNameChar) (l := rest')]
                    conv_lhs => rw [← List.takeWhile_append_dropWhile
                      (p := (· ≠ '>')) (l := rest'.dropWhile isNameChar)]
                    rw [hd]
                  conv_lhs => rw [hr]
                  simp
              · rw [if_neg (by simpa using hz)] at h
                exact absurd h (by simp)
          · rw [if_neg halpha] at h
            exact absurd h (by simp)
        · unfold matchOpenTag at h
          dsimp only at h
          rw [if_neg h1] at h
          exact absurd h (by simp)
  · rintro ⟨c0, cs, attrs, rest, halpha, hn, ha, rfl⟩
    unfold matchOpenTag
    dsimp only
    rw [if_pos rfl, if_pos halpha]
    have hxs : ∀ c ∈ (cs ++ attrs), ¬(c = '>') := by
      intro c hc
      rcases List.mem_append.mp hc with hc | hc
      · exact isNameChar_ne_gt (hn c hc)
      · exact ha c hc
    rcases dropWhile_split (p := isNameChar) (by decide) (cs ++ attrs) rest
      with ⟨xs', hd, hsub⟩
    have hstep : (cs ++ attrs ++ '>' :: rest).dropWhile isNameChar =
        xs' ++ '>' :: rest := by
      simpa [List.append_assoc] using hd
    rw [hstep, dropWhile_ne_gt xs' rest (fun c hc => hxs c (hsub c hc))]
    simp

/-- C9, counterexample: the Tree Builder recognises `<_a>` as a tag token
(its scanner accepts any `\w+` name, and `_` is a word character), while
the pattern described by the claim — an ASCII *letter* followed by
letters, digits or hyphens, exactly the pattern the locator implements —
rejects it. -/
theorem c9_counterexample :
    nextTag ("<_a>x".toList) = some (⟨false, "_a".toList, []⟩, "x".toList) ∧
    matchOpenTag ("<_a>x".toList) = none ∧ ('_'.isAlpha) = false := by
  refine ⟨by decide, by decide, by decide⟩

/-- C9, amended: the two scanners are both total and skip a `<` that does
not begin a valid tag without error, but their tag patterns differ.  The
Tree Builder's scanner recognises a construct exactly when it is `<`,
an optional `/`, a nonempty run of word characters (letters, digits or
underscore — a hyphen is *not* part of the name and falls into the
attribute text), a run of non-`>` characters and `>`.  The locator's
anchor pattern recognises `<`, an ASCII letter followed by letters,
digits or hyphens, a run of non-`>` characters and `>`, as the claim
describes.  A position that matches neither pattern is skipped (the scan
moves on by one character) and never raises. -/
theorem c9_amended :
    (∀ l : List Char, (tryTag l).isSome = true ↔
      ∃ sl name attrs rest, (sl = [] ∨ sl = ['/']) ∧ name ≠ [] ∧
        (∀ c ∈ name, isWordChar c = true) ∧ (∀ c ∈ attrs, ¬(c = '>')) ∧
        l = '<' :: (sl ++ name ++ attrs ++ '>' :: rest)) ∧
    (∀ l : List Char, (matchOpenTag l).isSome = true ↔
      ∃ c0 cs attrs rest, c0.isAlpha = true ∧ (∀ c ∈ cs, isNameChar c = true) ∧
        (∀ c ∈ attrs, ¬(c = '>')) ∧ l = '<' :: c0 :: (cs ++ attrs ++ '>' :: rest)) ∧
    (∀ (c : Char) (cs : List Char), tryTag (c :: cs) = none →
      nextTag (c :: cs) = nextTag cs) := by
  refine ⟨?_, matchOpenTag_isSome_iff, ?_⟩
  · intro l
    constructor
    · intro h
      rcases l with _ | ⟨c1, rest0⟩
      · exact absurd h (by simp [tryTag])
      · by_cases h1 : c1 = '<'
        · subst h1
          unfold tryTag at h
          dsimp only at h
          rw [if_pos rfl] at h
          by_cases hhd : rest0.head? = some '/'
          · rw [if_pos hhd] at h
            rcases rest0 with _ | ⟨c2, rest0'⟩
            · exact absurd hhd (by simp)
            · have hc2 : c2 = '/' := by simpa using hhd
              subst hc2
              rcases (tagAfter_isSome_iff true rest0').mp (by simpa using h)
                with ⟨name, attrs, rest, hne, hw, ha, hdec⟩
              exact ⟨['/'], name, attrs, rest, Or.inr rfl, hne, hw, ha,
                by simp [hdec]⟩
          · rw [if_neg hhd] at h
            rcases (tagAfter_isSome_iff false rest0).mp (by simpa using h)
              with ⟨name, attrs, rest, hne, hw, ha, hdec⟩
            exact ⟨[], name, attrs, rest, Or.inl rfl, hne, hw, ha,
              by simp [hdec]⟩
        · unfold tryTag at h
          dsimp only at h
          rw [if_neg h1] at h
          exact absurd h (by simp)
    · rintro ⟨sl, name, attrs, rest, hsl, hne, hw, ha, rfl⟩
      rcases hsl with rfl | rfl
      · have hhd : (name ++ attrs ++ '>' :: rest).head? ≠ some '/' := by
          rcases name with _ | ⟨n0, ns⟩
          · exact absurd rfl hne
          · have := hw n0 (by simp)
            simp only [List.nil_append, List.cons_append, List.head?_cons]
            intro hcon
            have : n0 = '/' := by simpa using hcon
            subst this
            exact absurd ‹isWordChar '/' = true› (by decide)
        unfold tryTag
        dsimp only
        rw [if_pos rfl]
        simp only [List.nil_append]
        rw [if_neg hhd]
        exact (tagAfter_isSome_iff false _).mpr ⟨name, attrs, rest, hne, hw, ha, rfl⟩
      · unfold tryTag
        dsimp only
        rw [if_pos rfl]
        simp only [List.cons_append, List.head?_cons, List.tail_cons, if_pos rfl]
        exact (tagAfter_isSome_iff true _).mpr ⟨name, attrs, rest, hne, hw, ha, rfl⟩
  · intro c cs h
    show (match tryTag (c :: cs) with
          | some r => some r
          | none => nextTag cs) = nextTag cs
    rw [h]

/-- C9 witness: the skip behaviour applied at a non-`<` character. -/
theorem c9_amended_witness :
    nextTag ("x<a>".toList) = nextTag ("<a>".toList) :=
  c9_amended.2.2 'x' ("<a>".toList) (by decide)

/-! ## Claim C5

The claim quantifies over *well-formed documents*: every opening tag has
exactly one matching same-name closing tag, properly nested.  We formalise
that class as an inductive grammar of documents — sequences of text chunks
and paired-tag elements — rendered to raw text.  `WFdoc` states the
syntactic side conditions that make the rendering faithful to the grammar:
tag names are nonempty `\w+` runs (so the scanner reads the name exactly as
written) that are not void-element names (a well-formed element carries a
closing tag, which void elements never do), attribute text contains no `>`,
does not start with a word character (which would extend the name) and does
not end in `/` (which would make the tag self-closing, contradicting the
paired closing tag), and text chunks contain no `<`. -/

/-- Documents as sequences: empty, a text chunk followed by a document, or
an element `<name attrs>inner</name>` followed by a document. -/
inductive HDoc where
  | nil : HDoc
  | text (s : List Char) (rest : HDoc) : HDoc
  | elem (name attrs : List Char) (inner rest : HDoc) : HDoc

/-- The raw text of a document. -/
def render : HDoc → List Char
  | .nil => []
  | .text s r => s ++ render r
  | .elem n a i r =>
    '<' :: (n ++ (a ++ ('>' :: (render i ++
      ('<' :: '/' :: (n ++ ('>' :: render r)))))))

/-- Well-formedness side conditions (see the section header). -/
def WFdoc : HDoc → Bool
  | .nil => true
  | .text s r => s.all (fun c => !(c = '<')) && WFdoc r
  | .elem n a i r =>
    !(n.isEmpty) && n.all isWordChar &&
    !(decide ((n.map Char.toLower) ∈ selfClosingTags)) &&
    a.all (fun c => !(c = '>')) &&
    (match a.head? with | some c => !(isWordChar c) | none => true) &&
    !(a.getLast? = some '/') &&
    WFdoc i && WFdoc r

/-- The tag tokens of a document, in order. -/
def hToks : HDoc → List Tag
  | .nil => []
  | .text _ r => hToks r
  | .elem n a i r =>
    ⟨false, n, a⟩ :: (hToks i ++ ⟨true, n, []⟩ :: hToks r)

/-- The element forest of a document, as the Tree Builder should produce
it: one node per element, in document order, children nested. -/
def hNodes : HDoc → List Dependency
  | .nil => []
  | .text _ r => hNodes r
  | .elem n a i r =>
    .mk (n.map Char.toLower) (extractAttribute a ("id".toList))
        (extractAttribute a ("class".toList)) (hNodes i) :: hNodes r

/-- The nesting depth of each opening tag of the document, in document
order, starting from depth `k`. -/
def hOpenDepths : HDoc → Nat → List Nat
  | .nil, _ => []
  | .text _ r, k => hOpenDepths r k
  | .elem _ _ i r, k => k :: (hOpenDepths i (k + 1) ++ hOpenDepths r k)

mutual

/-- Total number of nodes of a tree / forest. -/
def depCount : Dependency → Nat
  | .mk _ _ _ cs => 1 + depCountList cs

def depCountList : List Dependency → Nat
  | [] => 0
  | d :: ds => depCount d + depCountList ds

end

mutual

/-- The depth of every node of a tree / forest, in document order, the
roots having depth `k`. -/
def depDepths : Dependency → Nat → List Nat
  | .mk _ _ _ cs, k => k :: depDepthsList cs (k + 1)

def depDepthsList : List Dependency → Nat → List Nat
  | [], _ => []
  | d :: ds, k => depDepths d k ++ depDepthsList ds k

end

theorem isWordChar_gt : isWordChar '>' = false := by decide

theorem tryTag_ne_lt {c : Char} {cs : List Char} (h : ¬(c = '<')) :
    tryTag (c :: cs) = none := by
  unfold tryTag
  dsimp only
  rw [if_neg h]

theorem nextTag_cons_skip {c : Char} {z : List Char} (h : ¬(c = '<')) :
    nextTag (c :: z) = nextTag z := by
  show (match tryTag (c :: z) with
        | some r => some r
        | none => nextTag z) = nextTag z
  rw [tryTag_ne_lt h]

theorem tokenize_congr {a b : List Char} (h : nextTag a = nextTag b) :
    tokenize a = tokenize b := by
  rw [tokenize_eq a, tokenize_eq b, h]

theorem tokenize_text_skip : ∀ {s z : List Char}, (∀ c ∈ s, ¬(c = '<')) →
    tokenize (s ++ z) = tokenize z := by
  intro s
  induction s with
  | nil => intro z _; simp
  | cons c cs ih =>
    intro z h
    rw [List.cons_append,
      tokenize_congr (nextTag_cons_skip (h c (by simp))), ih fun c hc => h c (by simp [hc])]

/-- Scanning a well-formed opening tag `<name attrs>` produces exactly the
expected token. -/
theorem nextTag_open {n a z : List Char} (hn : ¬(n = []))
    (hw : ∀ c ∈ n, isWordChar c = true) (ha : ∀ c ∈ a, ¬(c = '>'))
    (hah : ∀ c, a.head? = some c → isWordChar c = false) :
    nextTag ('<' :: (n ++ (a ++ ('>' :: z)))) = some (⟨false, n, a⟩, z) := by
  have htk : (n ++ (a ++ ('>' :: z))).takeWhile isWordChar = n := by
    rw [List.takeWhile_append_of_pos hw]
    rcases a with _ | ⟨c, cs⟩
    · simp [List.takeWhile_cons, isWordChar_gt]
    · have := hah c rfl
      simp [List.takeWhile_cons, this]
  have hdw : (n ++ (a ++ ('>' :: z))).dropWhile isWordChar = a ++ ('>' :: z) := by
    rw [List.dropWhile_append_of_pos hw]
    rcases a with _ | ⟨c, cs⟩
    · simp [List.dropWhile_cons, isWordChar_gt]
    · have := hah c rfl
      simp [List.dropWhile_cons, this]
  have hta : (a ++ ('>' :: z)).takeWhile (· ≠ '>') = a := by
    have hpa : ∀ c ∈ a, (fun x => decide (x ≠ '>')) c = true := by
      intro c hc; simpa using ha c hc
    rw [List.takeWhile_append_of_pos hpa]
    simp [List.takeWhile_cons]
  have hhd : (n ++ (a ++ ('>' :: z))).head? ≠ some '/' := by
    rcases n with _ | ⟨n0, ns⟩
    · exact absurd rfl hn
    · have := hw n0 (by simp)
      simp only [List.cons_append, List.head?_cons]
      intro hcon
      have h0 : n0 = '/' := by simpa using hcon
      subst h0
      exact absurd this (by decide)
  show (match tryTag ('<' :: (n ++ (a ++ ('>' :: z)))) with
        | some r => some r
        | none => nextTag (n ++ (a ++ ('>' :: z)))) = _
  unfold tryTag
  dsimp only
  rw [if_pos rfl, if_neg hhd]
  unfold tagAfter
  rw [htk, if_neg hn, hdw, dropWhile_ne_gt a z ha]
  dsimp only
  rw [if_pos rfl, hta]

/-- Scanning a closing tag `</name>` produces exactly the expected token. -/
theorem nextTag_close {n z : List Char} (hn : ¬(n = []))
    (hw : ∀ c ∈ n, isWordChar c = true) :
    nextTag ('<' :: '/' :: (n ++ ('>' :: z))) = some (⟨true, n, []⟩, z) := by
  have htk : (n ++ ('>' :: z)).takeWhile isWordChar = n := by
    rw [List.takeWhile_append_of_pos hw]
    simp [List.takeWhile_cons, isWordChar_gt]
  have hdw : (n ++ ('>' :: z)).dropWhile isWordChar = '>' :: z := by
    rw [List.dropWhile_append_of_pos hw]
    simp [List.dropWhile_cons, isWordChar_gt]
  show (match tryTag ('<' :: '/' :: (n ++ ('>' :: z))) with
        | some r => some r
        | none => nextTag ('/' :: (n ++ ('>' :: z)))) = _
  unfold tryTag
  dsimp only
  rw [if_pos rfl]
  rw [if_pos (by simp)]
  unfold tagAfter
  simp only [List.tail_cons]
  rw [htk, if_neg hn, hdw]
  simp [List.dropWhile_cons, List.takeWhile_cons]

/-- Tokenization of a rendered well-formed document: exactly its tags, in
order, followed by the tokens of whatever comes after. -/
theorem tokenize_render : ∀ (d : HDoc), WFdoc d = true → ∀ (k : List Char),
    tokenize (render d ++ k) = hToks d ++ tokenize k := by
  intro d
  induction d with
  | nil => intro _ k; simp [render, hToks]
  | text s r ih =>
    intro h k
    simp only [WFdoc, Bool.and_eq_true, List.all_eq_true] at h
    rcases h with ⟨h1, h2⟩
    rw [render, hToks, List.append_assoc,
      tokenize_text_skip (fun c hc => by simpa using h1 c hc), ih h2 k]
  | elem n a i r ihi ihr =>
    intro h k
    simp only [WFdoc, Bool.and_eq_true, List.all_eq_true] at h
    rcases h with ⟨⟨⟨⟨⟨⟨⟨hn, hw⟩, -⟩, ha⟩, hah⟩, -⟩, hi⟩, hr⟩
    have hn' : ¬(n = []) := by simpa using hn
    have hw' : ∀ c ∈ n, isWordChar c = true := hw
    have ha' : ∀ c ∈ a, ¬(c = '>') := fun c hc => by simpa using ha c hc
    have hah' : ∀ c, a.head? = some c → isWordChar c = false := by
      intro c hc
      rw [hc] at hah
      simpa using hah
    have hshape : render (.elem n a i r) ++ k =
        '<' :: (n ++ (a ++ ('>' :: (render i ++
          ('<' :: '/' :: (n ++ ('>' :: (render r ++ k)))))))) := by
      simp [render]
    rw [hshape, tokenize_eq, nextTag_open hn' hw' ha' hah']
    dsimp only
    rw [ihi hi, tokenize_eq, nextTag_close hn' hw']
    dsimp only
    rw [ihr hr k, hToks]
    simp

theorem attachState_nil (s : ParseState) : attachState s [] = s := by
  unfold attachState
  rcases s with ⟨roots, stack⟩
  rcases stack with _ | ⟨f, fs⟩ <;> simp

theorem attachState_append (s : ParseState) (as bs : List Dependency) :
    attachState (attachState s as) bs = attachState s (as ++ bs) := by
  unfold attachState
  rcases s with ⟨roots, stack⟩
  rcases stack with _ | ⟨f, fs⟩ <;> simp

/-- The lower-case image of a word character is never `!`. -/
theorem toLower_ne_bang {c : Char} (h : isWordChar c = true) : c.toLower ≠ '!' := by
  intro habs
  simp only [Char.toLower] at habs
  split at habs
  · next hr =>
    have hv : (c.toNat + 32).isValidChar := by
      left
      omega
    have h2 : (Char.ofNat (c.toNat + 32)).toNat = '!'.toNat := by rw [habs]
    rw [show Char.ofNat (c.toNat + 32) = Char.ofNatAux _ hv by
      unfold Char.ofNat
      rw [dif_pos hv]] at h2
    have h3 : (Char.ofNatAux (c.toNat + 32) hv).toNat = c.toNat + 32 := rfl
    rw [h3] at h2
    have h4 : ('!'.toNat) = 33 := rfl
    omega
  · subst habs
    exact absurd h (by decide)

/-- A `\w+` tag name never lower-cases to `!doctype`. -/
theorem word_name_ne_doctype {n : List Char} (hn : ¬(n = []))
    (hw : ∀ c ∈ n, isWordChar c = true) :
    n.map Char.toLower ≠ "!doctype".toList := by
  rcases n with _ | ⟨n0, ns⟩
  · exact absurd rfl hn
  · intro habs
    have h0 : n0.toLower = '!' := by
      have : ("!doctype".toList) = '!' :: "doctype".toList := rfl
      rw [this] at habs
      simpa using congrArg List.head? habs
    exact toLower_ne_bang (hw n0 (by simp)) h0

/-- An opening tag's match text never starts with `<!--`. -/
theorem open_fullMatch_not_comment {n a : List Char} (hn : ¬(n = []))
    (hw : ∀ c ∈ n, isWordChar c = true) :
    commentOpen.isPrefixOf (Tag.fullMatch ⟨false, n, a⟩) = false := by
  rcases n with _ | ⟨n0, ns⟩
  · exact absurd rfl hn
  · have h0 : ¬(n0 = '!') := by
      intro h0
      subst h0
      exact absurd (hw '!' (by simp)) (by decide)
    simp [Tag.fullMatch, commentOpen, List.isPrefixOf]
    intro h
    exact absurd h.symm h0

/-- A rendered opening tag is not self-closing: its match text does not end
in `/>` and its lower-cased name is not a void-element name. -/
theorem open_not_selfclosing {n a : List Char} (hn : ¬(n = []))
    (hw : ∀ c ∈ n, isWordChar c = true)
    (hlast : ¬(a.getLast? = some '/'))
    (hvoid : ¬((n.map Char.toLower) ∈ selfClosingTags)) :
    (endsWithSlashGt (Tag.fullMatch ⟨false, n, a⟩) ||
      decide ((n.map Char.toLower) ∈ selfClosingTags)) = false := by
  have hsg : endsWithSlashGt (Tag.fullMatch ⟨false, n, a⟩) = false := by
    have hrev : (Tag.fullMatch ⟨false, n, a⟩).reverse =
        '>' :: ((n ++ a).reverse ++ ['<']) := by
      simp [Tag.fullMatch, List.reverse_append]
    unfold endsWithSlashGt
    rw [hrev]
    rcases hr : (n ++ a).reverse ++ ['<'] with _ | ⟨b, bs⟩
    · exact absurd hr (by simp)
    · have hb : ¬(b = '/') := by
        intro hbs
        subst hbs
        have hhead : ((n ++ a).reverse ++ ['<']).head? = some '/' := by
          rw [hr]; rfl
        have hrev_ne : (n ++ a).reverse ≠ [] := by
          simp only [ne_eq, List.reverse_eq_nil_iff, List.append_eq_nil]
          intro hh
          exact hn hh.1
        rw [List.head?_append_of_ne_nil _ hrev_ne, List.head?_reverse] at hhead
        rcases ha : a with _ | ⟨a0, as⟩
        · rw [ha, List.append_nil] at hhead
          have hmem : '/' ∈ n := List.mem_of_mem_getLast? hhead
          exact absurd (hw '/' hmem) (by decide)
        · rw [List.getLast?_append_of_ne_nil _ (by simp [ha] : a ≠ [])] at hhead
          exact hlast hhead
      dsimp only
      simp [hb]
  rw [hsg]
  simpa using hvoid

/-- Processing a rendered opening tag pushes exactly one frame. -/
theorem step_open_push {s : ParseState} {n a : List Char} (hn : ¬(n = []))
    (hw : ∀ c ∈ n, isWordChar c = true)
    (hlast : ¬(a.getLast? = some '/'))
    (hvoid : ¬((n.map Char.toLower) ∈ selfClosingTags)) :
    step s ⟨false, n, a⟩ =
      { s with stack := ⟨n.map Char.toLower,
          extractAttribute a ("id".toList),
          extractAttribute a ("class".toList), []⟩ :: s.stack } := by
  unfold step
  rw [if_neg (by
    rw [open_fullMatch_not_comment hn hw]
    intro hor
    rcases hor with hor | hor
    · exact word_name_ne_doctype hn hw hor
    · exact absurd hor (by simp))]
  dsimp only
  rw [if_neg (by simp), if_neg (by
    rw [open_not_selfclosing hn hw hlast hvoid]
    simp)]

/-- Processing a rendered closing tag pops the matching top frame and
attaches its node. -/
theorem step_close_pop {roots : List Dependency} {f : Frame} {fs : List Frame}
    {n : List Char} (hn : ¬(n = [])) (hw : ∀ c ∈ n, isWordChar c = true)
    (hname : f.tagName = n.map Char.toLower) :
    step ⟨roots, f :: fs⟩ ⟨true, n, []⟩ =
      attachState ⟨roots, fs⟩ [f.toNode] := by
  unfold step
  rw [if_neg (by
    rw [closing_fullMatch_not_comment rfl]
    intro hor
    rcases hor with hor | hor
    · exact word_name_ne_doctype hn hw hor
    · exact absurd hor (by simp))]
  dsimp only
  rw [if_pos hname, if_pos rfl]

/-- Processing the tokens of a rendered well-formed document attaches
exactly its node forest at the current insertion point. -/
theorem process_render : ∀ (d : HDoc), WFdoc d = true →
    ∀ (ts : List Tag) (s : ParseState),
      (hToks d ++ ts).foldl step s = ts.foldl step (attachState s (hNodes d)) := by
  intro d
  induction d with
  | nil => intro _ ts s; rw [hToks, hNodes, attachState_nil, List.nil_append]
  | text str r ih =>
    intro h ts s
    simp only [WFdoc, Bool.and_eq_true] at h
    exact ih h.2 ts s
  | elem n a i r ihi ihr =>
    intro h ts s
    simp only [WFdoc, Bool.and_eq_true, List.all_eq_true] at h
    rcases h with ⟨⟨⟨⟨⟨⟨⟨hn, hw⟩, hvd⟩, ha⟩, hah⟩, hlast⟩, hi⟩, hr⟩
    have hn' : ¬(n = []) := by simpa using hn
    have hlast' : ¬(a.getLast? = some '/') := by simpa using hlast
    have hvd' : ¬((n.map Char.toLower) ∈ selfClosingTags) := by simpa using hvd
    have hshape : hToks (.elem n a i r) ++ ts =
        (⟨false, n, a⟩ : Tag) ::
          (hToks i ++ ((⟨true, n, []⟩ : Tag) :: (hToks r ++ ts))) := by
      simp [hToks]
    rw [hshape, List.foldl_cons, step_open_push hn' hw hlast' hvd',
      ihi hi (⟨true, n, []⟩ :: (hToks r ++ ts)) _]
    have hatt : attachState
        { s with stack := ⟨n.map Char.toLower,
            extractAttribute a ("id".toList),
            extractAttribute a ("class".toList), []⟩ :: s.stack }
        (hNodes i) =
        ⟨s.roots, ⟨n.map Char.toLower,
            extractAttribute a ("id".toList),
            extractAttribute a ("class".toList), hNodes i⟩ :: s.stack⟩ := by
      unfold attachState
      simp
    rw [hatt, List.foldl_cons, step_close_pop hn' hw rfl, ihr hr ts _]
    have : attachState (attachState ⟨s.roots, s.stack⟩
        [Frame.toNode ⟨n.map Char.toLower,
            extractAttribute a ("id".toList),
            extractAttribute a ("class".toList), hNodes i⟩]) (hNodes r) =
        attachState s (hNodes (.elem n a i r)) := by
      rw [attachState_append]
      rfl
    rw [this]

theorem depCountList_hNodes : ∀ (d : HDoc),
    depCountList (hNodes d) =
      ((hToks d).filter (fun g => !g.closing)).length := by
  intro d
  induction d with
  | nil => rfl
  | text s r ih => simpa [hNodes, hToks] using ih
  | elem n a i r ihi ihr =>
    simp only [hNodes, hToks, depCountList, depCount, List.filter_cons,
      List.filter_append, List.length_append, List.length_cons]
    simp only [Bool.not_false, Bool.not_true, if_true, if_false]
    rw [ihi, ihr]
    simp [List.filter_append]
    omega

theorem depDepthsList_hNodes : ∀ (d : HDoc) (k : Nat),
    depDepthsList (hNodes d) k = hOpenDepths d k := by
  intro d
  induction d with
  | nil => intro k; rfl
  | text s r ih => intro k; simpa [hNodes, hOpenDepths] using ih k
  | elem n a i r ihi ihr =>
    intro k
    simp only [hNodes, hOpenDepths, depDepthsList, depDepths]
    rw [ihi, ihr]
    simp

/-- C5: for every well-formed document — every opening tag carries exactly
one matching same-name closing tag, properly nested, as captured by the
`HDoc` grammar and its `WFdoc` side conditions — `buildTree` (the Tree
Builder `parseHTMLHierarchy`) produces exactly the document's element
forest; consequently the total node count equals the number of opening-tag
tokens of the document, and the depth of every node (listed in document
order) equals the nesting depth of its opening tag. -/
theorem c5_wellformed_buildtree (d : HDoc) (h : WFdoc d = true) :
    parseHTMLHierarchy (render d) = hNodes d ∧
    depCountList (parseHTMLHierarchy (render d)) =
      ((tokenize (render d)).filter (fun g => !g.closing)).length ∧
    depDepthsList (parseHTMLHierarchy (render d)) 0 = hOpenDepths d 0 := by
  have htok : tokenize (render d) = hToks d := by
    have h1 := tokenize_render d h []
    have h2 : tokenize ([] : List Char) = [] := rfl
    rw [List.append_nil, h2, List.append_nil] at h1
    exact h1
  have hparse : parseHTMLHierarchy (render d) = hNodes d := by
    unfold parseHTMLHierarchy
    rw [htok]
    have h3 := process_render d h [] ⟨[], []⟩
    rw [List.append_nil] at h3
    rw [h3]
    unfold attachState finalize
    simp
  refine ⟨hparse, ?_, ?_⟩
  · rw [hparse, htok]
    exact depCountList_hNodes d
  · rw [hparse]
    exact depDepthsList_hNodes d 0

/-- The document `<div id="d"><p>hi</p></div><br/>`-like example used to
witness C5: `<div><p></p></div>` with a trailing text chunk. -/
def wfExampleDoc : HDoc :=
  .elem ("div".toList) (" id=\"d\"".toList)
    (.elem ("p".toList) [] (.text ("hi".toList) .nil) .nil)
    (.text ("bye".toList) .nil)

/-- C5 witness: the theorem evaluated on the concrete well-formed document
`<div id="d"><p>hi</p></div>bye`. -/
theorem c5_wellformed_buildtree_witness :
    parseHTMLHierarchy (render wfExampleDoc) = hNodes wfExampleDoc ∧
    depCountList (parseHTMLHierarchy (render wfExampleDoc)) =
      ((tokenize (render wfExampleDoc)).filter (fun g => !g.closing)).length ∧
    depDepthsList (parseHTMLHierarchy (render wfExampleDoc)) 0 =
      hOpenDepths wfExampleDoc 0 :=
  c5_wellformed_buildtree wfExampleDoc (by decide)

end WhoAmI
